import Mathlib

/-!
Shallow embedding of the `rust_numpy_ext` bridge (src/src/lib.rs).

Modelling choices:
* An `f64` value is modelled by `F`: either the not-a-number value or an
  exact numeric value (a rational).  Rounding, overflow, signed zero and
  the two infinities are abstracted away; the claims under study hinge on
  NaN handling, ordering and exact elementwise arithmetic, not on rounding.
* A host numpy array of arbitrary rank is modelled by the list of its
  elements in iteration order, since every rank-generic operation of the
  bridge (`max_min`, `double_and_random_perturbation`) only iterates over
  the elements.
* The per-element random draws of `rand::thread_rng()`s `gen::<f64>()`
  (uniform on `[0, 1)`) are modelled by an explicit draw function
  `r : ℕ → ℚ` giving the value drawn for the i-th visited element.
* Rust panics (`expect`) are modelled as `Except.error` carrying the
  panic message; host-visible Python exceptions raised by the boundary
  are modelled by `Except.error` carrying a `BridgeError`.
-/

/-- A double-precision floating-point value: the not-a-number value, or a
numeric value modelled as an exact rational. -/
inductive F where
  | nan : F
  | val : ℚ → F
deriving DecidableEq

namespace rust_fn

/-- `Ord::cmp` on `ordered_float::OrderedFloat<f64>` (used by
`rust_fn::max_min` via `.map(|a| OrderedFloat(*a))`): NaN compares equal
to itself and greater than every other value; any two numeric values
compare numerically. -/
def cmpF : F → F → Ordering
  | F.nan, F.nan => Ordering.eq
  | F.nan, F.val _ => Ordering.gt
  | F.val _, F.nan => Ordering.lt
  | F.val a, F.val b =>
      if a < b then Ordering.lt else if b < a then Ordering.gt else Ordering.eq

/-- `a` is less than or equal to `b` in the total order that
`OrderedFloat` imposes. -/
def leF (a b : F) : Prop := cmpF a b ≠ Ordering.gt

instance (a b : F) : Decidable (leF a b) := by
  unfold leF; infer_instance

/-- One step of Rust's `Iterator::max` reduction (`core::cmp::max_by`
with `Ord::cmp`): keep the accumulator only when it is strictly greater,
so ties keep the later element. -/
def maxStep (acc y : F) : F := if cmpF acc y = Ordering.gt then acc else y

/-- One step of Rust's `Iterator::min` reduction (`core::cmp::min_by`
with `Ord::cmp`): replace the accumulator only when it is strictly
greater, so ties keep the earlier element. -/
def minStep (acc y : F) : F := if cmpF acc y = Ordering.gt then y else acc

/-- Rust's `Iterator::max` over the elements in iteration order, under
the `OrderedFloat` order: `none` on an empty iterator, otherwise the
fold of `maxStep` started at the first element. -/
def maxIter : List F → Option F
  | [] => none
  | x :: xs => some (xs.foldl maxStep x)

/-- Rust's `Iterator::min` over the elements in iteration order, under
the `OrderedFloat` order. -/
def minIter : List F → Option F
  | [] => none
  | x :: xs => some (xs.foldl minStep x)

/-- `rust_fn::max_min`: if the view has no elements return the empty
array, otherwise return the two-element array `[max, min]` computed with
the `OrderedFloat` total order.  The two `expect` calls are modelled as
`Except.error` with the exact panic message. -/
def max_min (x : List F) : Except String (List F) :=
  if x.length = 0 then Except.ok []
  else
    match maxIter x with
    | none => Except.error "Error calculating max value."
    | some max_val =>
      match minIter x with
      | none => Except.error "Error calculating min value."
      | some min_val => Except.ok [max_val, min_val]

/-- One element update of `rust_fn::double_and_random_perturbation`:
`*x = *x * 2. + (rng.gen::<f64>() - 0.5) * scaling`, with `r` the value
drawn for this element.  NaN propagates through the arithmetic. -/
def perturb (r scaling : ℚ) : F → F
  | F.nan => F.nan
  | F.val a => F.val (a * 2 + (r - 1 / 2) * scaling)

/-- Helper: apply `perturb` to each element, drawing `r i` for the
element visited at position `i` (counting from `k`). -/
def perturbFrom (r : ℕ → ℚ) (scaling : ℚ) : ℕ → List F → List F
  | _, [] => []
  | k, a :: rest => perturb (r k) scaling a :: perturbFrom r scaling (k + 1) rest

/-- `rust_fn::double_and_random_perturbation`: mutate every element of
the view in iteration order, the i-th visited element receiving the
i-th random draw.  The in-place mutation is modelled by returning the
new contents. -/
def double_and_random_perturbation (r : ℕ → ℚ) (scaling : ℚ) (x : List F) : List F :=
  perturbFrom r scaling 0 x

/-- Doubling of a float value, `2 * original`, NaN propagating: used to
state the claims about `double_and_random_perturbation`. -/
def twice : F → F
  | F.nan => F.nan
  | F.val a => F.val (a * 2)

end rust_fn

/-- The element type declared by a host numpy array. -/
inductive DType where
  | float64
  | float32
  | int64
  | int32
deriving DecidableEq

/-- A host-owned numpy array: its declared element type and its contents
(the elements in iteration order; `data` is meaningful when `dtype` is
`float64`). -/
structure HostArray where
  dtype : DType
  data : List F

/-- A host-visible Python exception raised by the bridge. -/
inductive BridgeError where
  | typeMismatch
  | invalidArgument
  | internal (msg : String)
deriving DecidableEq

/-- The exported `max_min` entry point.  Modelled from the spec: the
PyO3/numpy extraction of `PyReadonlyArrayDyn<f64>` (dependency code not
under src/) rejects a host array whose element type is not float64 with
a host-visible TypeError before any native computation touches the
data; on a float64 array the entry point calls `rust_fn::max_min` on a
read-only view and publishes the result. -/
def max_min (x : HostArray) : Except BridgeError (List F) :=
  if x.dtype = DType.float64 then
    match rust_fn.max_min x.data with
    | Except.ok res => Except.ok res
    | Except.error msg => Except.error (BridgeError.internal msg)
  else Except.error BridgeError.typeMismatch

/-- The exported `double_and_random_perturbation` entry point.  Modelled
from the spec: the PyO3/numpy extraction of `&PyArrayDyn<f64>`
(dependency code not under src/) rejects a non-float64 host array with a
host-visible TypeError before any native computation touches the data;
on a float64 array the kernel mutates the shared backing storage in
place.  The call is modelled as returning the outcome together with the
final state of the host array. -/
def double_and_random_perturbation (r : ℕ → ℚ) (x : HostArray) (scaling : ℚ) :
    Except BridgeError Unit × HostArray :=
  if x.dtype = DType.float64 then
    (Except.ok (), { x with data := rust_fn.double_and_random_perturbation r scaling x.data })
  else (Except.error BridgeError.typeMismatch, x)

/-- `ndarray::Array::eye`.  Modelled from the spec: the `ndarray` crate
(dependency code not under src/) is documented to build the size×size
matrix with ones on the main diagonal and zeros elsewhere. -/
def eyeMatrix (size : ℕ) : List (List F) :=
  (List.range size).map fun i =>
    (List.range size).map fun j => if i = j then F.val 1 else F.val 0

/-- The exported `eye` entry point, taking the host-side integer `size`.
Modelled from the spec: the PyO3 extraction of a host integer into
`usize` (dependency code not under src/) fails on a negative value with
a host-visible ValueError-class InvalidArgument error before the
function body runs, hence before any allocation and before the kernel
is reached; a non-negative value reaches `ndarray::Array::eye`. -/
def eye (size : ℤ) : Except BridgeError (List (List F)) :=
  if size < 0 then Except.error BridgeError.invalidArgument
  else Except.ok (eyeMatrix size.toNat)

namespace rust_fn

/-! ### Properties of the imposed total order -/

theorem leF_refl (a : F) : leF a a := by
  cases a <;> simp [leF, cmpF]

theorem leF_val_nan (a : F) : leF a F.nan := by
  cases a <;> simp [leF, cmpF]

theorem leF_nan_iff {b : F} : leF F.nan b ↔ b = F.nan := by
  cases b <;> simp [leF, cmpF]

theorem leF_val_iff {a b : ℚ} : leF (F.val a) (F.val b) ↔ a ≤ b := by
  simp only [leF, cmpF]
  split_ifs with h1 h2
  · simp only [ne_eq, reduceCtorEq, not_false_eq_true, true_iff]; linarith
  · simp only [ne_eq, not_true_eq_false, false_iff, not_le]; exact h2
  · simp only [ne_eq, reduceCtorEq, not_false_eq_true, true_iff]; linarith

theorem leF_of_gt {a b : F} (h : cmpF a b = Ordering.gt) : leF b a := by
  cases a with
  | nan =>
    cases b with
    | nan => simp [cmpF] at h
    | val qb => simp [leF, cmpF]
  | val qa =>
    cases b with
    | nan => simp [cmpF] at h
    | val qb =>
      refine leF_val_iff.mpr ?_
      simp only [cmpF] at h
      split_ifs at h with h1 h2
      · exact le_of_lt h2

theorem leF_trans {a b c : F} (hab : leF a b) (hbc : leF b c) : leF a c := by
  cases c with
  | nan => exact leF_val_nan a
  | val qc =>
    cases b with
    | nan => exact absurd (leF_nan_iff.mp hbc) (by simp)
    | val qb =>
      cases a with
      | nan => exact absurd (leF_nan_iff.mp hab) (by simp)
      | val qa =>
        exact leF_val_iff.mpr (le_trans (leF_val_iff.mp hab) (leF_val_iff.mp hbc))

/-! ### The fold semantics of Rust `Iterator::max` / `Iterator::min` -/

theorem maxStep_or (acc y : F) : maxStep acc y = acc ∨ maxStep acc y = y := by
  unfold maxStep; split_ifs <;> simp

theorem minStep_or (acc y : F) : minStep acc y = acc ∨ minStep acc y = y := by
  unfold minStep; split_ifs <;> simp

theorem le_maxStep_left (acc y : F) : leF acc (maxStep acc y) := by
  unfold maxStep
  split_ifs with h
  · exact leF_refl _
  · exact h

theorem le_maxStep_right (acc y : F) : leF y (maxStep acc y) := by
  unfold maxStep
  split_ifs with h
  · exact leF_of_gt h
  · exact leF_refl _

theorem minStep_le_left (acc y : F) : leF (minStep acc y) acc := by
  unfold minStep
  split_ifs with h
  · exact leF_of_gt h
  · exact leF_refl _

theorem minStep_le_right (acc y : F) : leF (minStep acc y) y := by
  unfold minStep
  split_ifs with h
  · exact leF_refl _
  · exact h

theorem foldl_maxStep_mem (xs : List F) (x : F) : xs.foldl maxStep x ∈ x :: xs := by
  induction xs generalizing x with
  | nil => simp
  | cons y ys ih =>
    have h := ih (maxStep x y)
    rcases maxStep_or x y with h1 | h1 <;> rw [h1] at h <;>
      simp only [List.foldl_cons] at * <;> rw [h1] <;>
      rcases List.mem_cons.mp h with h2 | h2 <;> simp [h2]

theorem foldl_minStep_mem (xs : List F) (x : F) : xs.foldl minStep x ∈ x :: xs := by
  induction xs generalizing x with
  | nil => simp
  | cons y ys ih =>
    have h := ih (minStep x y)
    rcases minStep_or x y with h1 | h1 <;> rw [h1] at h <;>
      simp only [List.foldl_cons] at * <;> rw [h1] <;>
      rcases List.mem_cons.mp h with h2 | h2 <;> simp [h2]

theorem le_foldl_maxStep (xs : List F) (x : F) :
    ∀ y ∈ x :: xs, leF y (xs.foldl maxStep x) := by
  induction xs generalizing x with
  | nil => intro y hy; simp at hy; subst hy; exact leF_refl _
  | cons z zs ih =>
    intro y hy
    simp only [List.foldl_cons]
    rcases List.mem_cons.mp hy with h | h
    · subst h
      exact leF_trans (le_maxStep_left y z) (ih (maxStep y z) _ (List.mem_cons_self _ _))
    · rcases List.mem_cons.mp h with h2 | h2
      · subst h2
        exact leF_trans (le_maxStep_right x y) (ih (maxStep x y) _ (List.mem_cons_self _ _))
      · exact ih (maxStep x z) y (List.mem_cons_of_mem _ h2)

theorem foldl_minStep_le (xs : List F) (x : F) :
    ∀ y ∈ x :: xs, leF (xs.foldl minStep x) y := by
  induction xs generalizing x with
  | nil => intro y hy; simp at hy; subst hy; exact leF_refl _
  | cons z zs ih =>
    intro y hy
    simp only [List.foldl_cons]
    rcases List.mem_cons.mp hy with h | h
    · subst h
      exact leF_trans (ih (minStep y z) _ (List.mem_cons_self _ _)) (minStep_le_left y z)
    · rcases List.mem_cons.mp h with h2 | h2
      · subst h2
        exact leF_trans (ih (minStep x y) _ (List.mem_cons_self _ _)) (minStep_le_right x y)
      · exact ih (minStep x z) y (List.mem_cons_of_mem _ h2)

/-- `max_min` on a non-empty list returns exactly the fold results. -/
theorem max_min_cons (x : F) (xs : List F) :
    max_min (x :: xs) =
      Except.ok [xs.foldl maxStep x, xs.foldl minStep x] := by
  simp [max_min, maxIter, minIter]

end rust_fn

namespace rust_fn

/-! ### Elementwise behaviour of `double_and_random_perturbation` -/

theorem perturbFrom_getElem? (r : ℕ → ℚ) (s : ℚ) :
    ∀ (l : List F) (k i : ℕ),
      (perturbFrom r s k l)[i]? = (l[i]?).map (perturb (r (k + i)) s) := by
  intro l
  induction l with
  | nil => intro k i; simp [perturbFrom]
  | cons a rest ih =>
    intro k i
    cases i with
    | zero => simp [perturbFrom]
    | succ j =>
      simp only [perturbFrom, List.getElem?_cons_succ]
      rw [ih (k + 1) j]
      have hk : k + 1 + j = k + (j + 1) := by omega
      rw [hk]

theorem double_and_random_perturbation_getElem? (r : ℕ → ℚ) (s : ℚ) (l : List F) (i : ℕ) :
    (double_and_random_perturbation r s l)[i]? = (l[i]?).map (perturb (r i) s) := by
  unfold double_and_random_perturbation
  rw [perturbFrom_getElem?]
  simp

theorem perturbFrom_zero_scaling (r : ℕ → ℚ) :
    ∀ (l : List F) (k : ℕ), perturbFrom r 0 k l = l.map twice := by
  intro l
  induction l with
  | nil => intro k; simp [perturbFrom]
  | cons a rest ih =>
    intro k
    simp only [perturbFrom, List.map_cons, ih]
    congr 1
    cases a with
    | nan => rfl
    | val q => simp [perturb, twice]

end rust_fn

/-! ### Claims -/

/-- Claim C1: for every non-empty float64 array `A` (modelled as the list
of its elements in iteration order, any rank), `max_min(A)` returns the
length-2 array `[m, n]` where every element `x` of `A` satisfies `x ≤ m`
and `n ≤ x` in the total order the kernel imposes via `OrderedFloat`
(which coincides with numeric order on numeric values, as the extra two
conjuncts state), and `m` and `n` are each elements of `A`. -/
theorem C1_max_min_bounds (l : List F) (h : l ≠ []) :
    ∃ m n, rust_fn.max_min l = Except.ok [m, n] ∧ m ∈ l ∧ n ∈ l ∧
      (∀ x ∈ l, rust_fn.leF x m ∧ rust_fn.leF n x) ∧
      (∀ qx qm, F.val qx ∈ l → m = F.val qm → qx ≤ qm) ∧
      (∀ qx qn, F.val qx ∈ l → n = F.val qn → qn ≤ qx) := by
  cases l with
  | nil => exact absurd rfl h
  | cons a as =>
    refine ⟨as.foldl rust_fn.maxStep a, as.foldl rust_fn.minStep a,
      rust_fn.max_min_cons a as, rust_fn.foldl_maxStep_mem as a,
      rust_fn.foldl_minStep_mem as a,
      fun x hx => ⟨rust_fn.le_foldl_maxStep as a x hx, rust_fn.foldl_minStep_le as a x hx⟩,
      ?_, ?_⟩
    · intro qx qm hmem hm
      have := rust_fn.le_foldl_maxStep as a (F.val qx) hmem
      rw [hm] at this
      exact rust_fn.leF_val_iff.mp this
    · intro qx qn hmem hn
      have := rust_fn.foldl_minStep_le as a (F.val qx) hmem
      rw [hn] at this
      exact rust_fn.leF_val_iff.mp this

/-- Witness for C1 at the concrete array `[2, 5, 3]`. -/
theorem C1_max_min_bounds_witness :
    ∃ m n, rust_fn.max_min [F.val 2, F.val 5, F.val 3] = Except.ok [m, n] ∧
      m ∈ [F.val 2, F.val 5, F.val 3] ∧ n ∈ [F.val 2, F.val 5, F.val 3] ∧
      (∀ x ∈ [F.val 2, F.val 5, F.val 3], rust_fn.leF x m ∧ rust_fn.leF n x) ∧
      (∀ qx qm, F.val qx ∈ [F.val 2, F.val 5, F.val 3] → m = F.val qm → qx ≤ qm) ∧
      (∀ qx qn, F.val qx ∈ [F.val 2, F.val 5, F.val 3] → n = F.val qn → qn ≤ qx) :=
  C1_max_min_bounds [F.val 2, F.val 5, F.val 3] (by simp)

/-- Claim C2: on the empty input array (zero elements, any rank),
`rust_fn::max_min` returns a zero-length array and does not fail. -/
theorem C2_max_min_empty :
    ∃ res, rust_fn.max_min [] = Except.ok res ∧ res.length = 0 :=
  ⟨[], rfl, rfl⟩

/-- Claim C3: for every array containing a NaN element, `max_min` is
deterministic and well-defined: on equal inputs it returns equal
results, it does not fail, and it yields a pair. -/
theorem C3_nan_deterministic (l₁ l₂ : List F) (hnan : F.nan ∈ l₁) (heq : l₁ = l₂) :
    rust_fn.max_min l₁ = rust_fn.max_min l₂ ∧
    ∃ m n, rust_fn.max_min l₁ = Except.ok [m, n] := by
  subst heq
  refine ⟨rfl, ?_⟩
  cases l₁ with
  | nil => simp at hnan
  | cons a as => exact ⟨_, _, rust_fn.max_min_cons a as⟩

/-- Witness for C3 at the concrete array `[NaN, 1]`. -/
theorem C3_nan_deterministic_witness :
    rust_fn.max_min [F.nan, F.val 1] = rust_fn.max_min [F.nan, F.val 1] ∧
    ∃ m n, rust_fn.max_min [F.nan, F.val 1] = Except.ok [m, n] :=
  C3_nan_deterministic [F.nan, F.val 1] [F.nan, F.val 1] (by simp) rfl

/-- Claim C4: for every `size ≥ 0`, the exported `eye` returns a
`size`×`size` matrix whose entry at row `i`, column `j` is `1.0` when
`i = j` and `0.0` otherwise; `eye 0` returns a matrix with zero
elements. -/
theorem C4_identity (size : ℕ) :
    ∃ m, eye (size : ℤ) = Except.ok m ∧
      m.length = size ∧
      (∀ i (hi : i < m.length), m[i].length = size) ∧
      (∀ i j (hi : i < m.length) (hj : j < m[i].length),
        m[i][j] = if i = j then F.val 1 else F.val 0) ∧
      (size = 0 → m = []) := by
  refine ⟨eyeMatrix size, ?_, ?_, ?_, ?_, ?_⟩
  · unfold eye
    rw [if_neg (by omega)]
    simp
  · simp [eyeMatrix]
  · intro i hi
    simp [eyeMatrix] at hi ⊢
  · intro i j hi hj
    simp [eyeMatrix] at hi hj ⊢
  · intro h0
    subst h0
    simp [eyeMatrix]

/-- Witness for C4 at `size = 2`, also evaluating the matrix. -/
theorem C4_identity_witness :
    (∃ m, eye ((2 : ℕ) : ℤ) = Except.ok m ∧
      m.length = 2 ∧
      (∀ i (hi : i < m.length), m[i].length = 2) ∧
      (∀ i j (hi : i < m.length) (hj : j < m[i].length),
        m[i][j] = if i = j then F.val 1 else F.val 0) ∧
      ((2 : ℕ) = 0 → m = [])) ∧
    eyeMatrix 2 = [[F.val 1, F.val 0], [F.val 0, F.val 1]] :=
  ⟨C4_identity 2, by decide⟩

/-- Claim C5: for every negative integer `size`, the exported `eye`
fails with the ValueError-class InvalidArgument error at the boundary,
producing no matrix. -/
theorem C5_identity_negative (size : ℤ) (h : size < 0) :
    eye size = Except.error BridgeError.invalidArgument := by
  simp [eye, h]

/-- Witness for C5 at `size = -1`. -/
theorem C5_identity_negative_witness :
    eye (-1) = Except.error BridgeError.invalidArgument :=
  C5_identity_negative (-1) (by decide)

/-- Claim C6: with `scaling = 0`, `double_and_random_perturbation`
doubles every element in place, whatever values the random draws take:
the result is the elementwise doubling of the original contents and
does not depend on the draw function `r`. -/
theorem C6_zero_scaling (r : ℕ → ℚ) (l : List F) :
    rust_fn.double_and_random_perturbation r 0 l = l.map rust_fn.twice := by
  unfold rust_fn.double_and_random_perturbation
  exact rust_fn.perturbFrom_zero_scaling r l 0

/-- Claim C7: for any scaling value and any draws taken from `[0, 1)`,
every element of the result of `double_and_random_perturbation` that
came from a numeric element `a` is numeric and lies in the closed
interval `[2a - |scaling|/2, 2a + |scaling|/2]`. -/
theorem C7_perturb_bounds (r : ℕ → ℚ) (scaling : ℚ) (l : List F)
    (hr : ∀ i, 0 ≤ r i ∧ r i < 1) :
    ∀ (i : ℕ) (a : ℚ), l[i]? = some (F.val a) →
      ∃ b, (rust_fn.double_and_random_perturbation r scaling l)[i]? = some (F.val b) ∧
        a * 2 - |scaling| / 2 ≤ b ∧ b ≤ a * 2 + |scaling| / 2 := by
  intro i a hia
  refine ⟨a * 2 + (r i - 1 / 2) * scaling, ?_, ?_, ?_⟩
  · rw [rust_fn.double_and_random_perturbation_getElem?, hia]
    rfl
  all_goals
    have h1 : |r i - 1 / 2| ≤ 1 / 2 :=
      abs_le.mpr ⟨by linarith [(hr i).1], by linarith [(hr i).2]⟩
    have h2 : |(r i - 1 / 2) * scaling| ≤ |scaling| / 2 := by
      rw [abs_mul]
      calc |r i - 1 / 2| * |scaling| ≤ 1 / 2 * |scaling| :=
            mul_le_mul_of_nonneg_right h1 (abs_nonneg _)
        _ = |scaling| / 2 := by ring
    have h3 := abs_le.mp h2
    linarith [h3.1, h3.2]

/-- Witness for C7 at the concrete array `[1]`, `scaling = 3`, with
every draw equal to `1/2`. -/
theorem C7_perturb_bounds_witness :
    ∃ b, (rust_fn.double_and_random_perturbation (fun _ => (1 : ℚ) / 2) 3 [F.val 1])[0]? =
        some (F.val b) ∧
      1 * 2 - |(3 : ℚ)| / 2 ≤ b ∧ b ≤ 1 * 2 + |(3 : ℚ)| / 2 :=
  C7_perturb_bounds (fun _ => (1 : ℚ) / 2) 3 [F.val 1]
    (fun _ => ⟨by norm_num, by norm_num⟩) 0 1 rfl

/-- Claim C8: for every host array whose element type is not float64,
both exported operations fail with TypeMismatch at the boundary, and
the host array is left unchanged (the perturbation call returns the
array in its original state). -/
theorem C8_type_mismatch (x : HostArray) (h : x.dtype ≠ DType.float64) :
    max_min x = Except.error BridgeError.typeMismatch ∧
    ∀ r scaling, double_and_random_perturbation r x scaling =
      (Except.error BridgeError.typeMismatch, x) := by
  constructor
  · simp [max_min, h]
  · intro r scaling
    simp [double_and_random_perturbation, h]

/-- Witness for C8 at a concrete int64 host array. -/
theorem C8_type_mismatch_witness :
    max_min ⟨DType.int64, [F.val 1]⟩ = Except.error BridgeError.typeMismatch ∧
    ∀ r scaling, double_and_random_perturbation r ⟨DType.int64, [F.val 1]⟩ scaling =
      (Except.error BridgeError.typeMismatch, ⟨DType.int64, [F.val 1]⟩) :=
  C8_type_mismatch ⟨DType.int64, [F.val 1]⟩ (by simp)

/-- Claim C9: the total order `max_min` imposes via `OrderedFloat`
places NaN above every other value: on any array containing a NaN the
reported maximum is NaN, and the reported minimum is an element that is
least in that order and is NaN exactly when every element is NaN. -/
theorem C9_nan_total_order (l : List F) (h : F.nan ∈ l) :
    ∃ n, rust_fn.max_min l = Except.ok [F.nan, n] ∧ n ∈ l ∧
      (∀ x ∈ l, rust_fn.leF n x) ∧
      (n = F.nan ↔ ∀ x ∈ l, x = F.nan) := by
  cases l with
  | nil => simp at h
  | cons a as =>
    have hmax : as.foldl rust_fn.maxStep a = F.nan :=
      rust_fn.leF_nan_iff.mp (rust_fn.le_foldl_maxStep as a F.nan h)
    refine ⟨as.foldl rust_fn.minStep a, ?_, rust_fn.foldl_minStep_mem as a,
      rust_fn.foldl_minStep_le as a, ?_, ?_⟩
    · rw [rust_fn.max_min_cons a as, hmax]
    · intro hn x hx
      have hle := rust_fn.foldl_minStep_le as a x hx
      rw [hn] at hle
      exact rust_fn.leF_nan_iff.mp hle
    · intro hall
      exact hall _ (rust_fn.foldl_minStep_mem as a)

/-- Witness for C9 at the concrete array `[1, NaN]`. -/
theorem C9_nan_total_order_witness :
    ∃ n, rust_fn.max_min [F.val 1, F.nan] = Except.ok [F.nan, n] ∧
      n ∈ [F.val 1, F.nan] ∧
      (∀ x ∈ [F.val 1, F.nan], rust_fn.leF n x) ∧
      (n = F.nan ↔ ∀ x ∈ [F.val 1, F.nan], x = F.nan) :=
  C9_nan_total_order [F.val 1, F.nan] (by simp)

/-- Claim C10: the `expect` branches of `rust_fn::max_min` are
unreachable: on every input the function returns successfully, never
with either internal-error message. -/
theorem C10_expect_unreachable (l : List F) :
    (∃ res, rust_fn.max_min l = Except.ok res) ∧
    ∀ msg, rust_fn.max_min l ≠ Except.error msg := by
  have h : ∃ res, rust_fn.max_min l = Except.ok res := by
    cases l with
    | nil => exact ⟨[], rfl⟩
    | cons a as => exact ⟨_, rust_fn.max_min_cons a as⟩
  obtain ⟨res, hres⟩ := h
  exact ⟨⟨res, hres⟩, fun msg hmsg => by rw [hres] at hmsg; exact Except.noConfusion hmsg⟩
